import Mathlib

/-!
Verification of the marshmallow serialization core (`src/marshmallow/core.py`)
and its email validator contract.

The embedding is shallow: Python runtime values that `marshal` can receive are
modelled by the inductive `Value`; a compiled field mapping (an `OrderedDict`
mapping field names to field objects or nested mappings) is modelled by
`FieldMapping`; `marshal`, `_get_declared_fields`, `BaseSerializer.get_fields`
and `validate.email` are translated function by function from the source.
-/

namespace Marshmallow

/-- A Python value as seen by `marshal`:
`null` models `None`; `str` a string (iterable in Python but excluded by the
`hasattr(obj, "strip")` test); `int` a number; `obj` a plain attribute-bearing
object (no `__iter__`); `list` a list (iterable, no `strip`);
`dict` a mapping (iterable over its keys, no `strip`). -/
inductive Value where
  | null : Value
  | str : String → Value
  | int : Int → Value
  | obj : List (String × Value) → Value
  | list : List Value → Value
  | dict : List (String × Value) → Value

/-- A value of the compiled field mapping: either a field object, carried as
its `output(name, data)` operation (source: `v.output(k, data)`), or a nested
field mapping (source: the `isinstance(v, dict)` branch of `marshal`). -/
inductive FieldEntry where
  | field : (String → Value → Value) → FieldEntry
  | nested : List (String × FieldEntry) → FieldEntry

/-- An ordered field mapping, as `fields.items()` enumerates it. -/
abbrev FieldMapping := List (String × FieldEntry)

/-- The result of `marshal`: a list (iterable input), an `OrderedDict`
(scalar-like input), or a plain field-output value at a dict entry. -/
inductive Result where
  | list : List Result → Result
  | dict : List (String × Result) → Result
  | value : Value → Result

/-- Source: `_is_iterable_but_not_string(obj)` is
`hasattr(obj, "__iter__") and not hasattr(obj, "strip")`.
Over the modelled universe: lists and dicts have `__iter__` and no `strip`;
strings have `strip` (and in Python 2 no `__iter__`); `None`, numbers and
plain objects have no `__iter__`. -/
def _is_iterable_but_not_string : Value → Bool
  | .list _ => true
  | .dict _ => true
  | _ => false

/-- What `for d in data` yields on an iterable `data`: the elements of a list,
and the keys of a dict (Python iterates a mapping as its keys). On
non-iterables this is never consulted by `marshal`. -/
def iterate : Value → List Value
  | .list vs => vs
  | .dict kvs => kvs.map (fun kv => Value.str kv.1)
  | _ => []

mutual

/-- Source: `marshal(data, fields)`. When `data` is iterable-but-not-string it
maps itself over the elements (`[marshal(d, fields) for d in data]`);
otherwise it builds an `OrderedDict` from the field mapping's items. -/
def marshal : Value → FieldMapping → Result
  | data, fields =>
    if _is_iterable_but_not_string data then
      Result.list ((iterate data).attach.map (fun d => marshal d.1 fields))
    else
      Result.dict (marshalItems data fields)
termination_by data fields => (sizeOf data, sizeOf fields, 2)
decreasing_by
· have hm := d.2
  have hlt : sizeOf d.1 < sizeOf data := by
    cases data with
    | null => simp [iterate] at hm
    | str s => simp [iterate] at hm
    | int i => simp [iterate] at hm
    | obj l => simp [iterate] at hm
    | list vs =>
        simp only [iterate] at hm
        have h1 := List.sizeOf_lt_of_mem hm
        simp only [Value.list.sizeOf_spec]
        omega
    | dict kvs =>
        simp only [iterate, List.mem_map] at hm
        obtain ⟨kv, hkv, hd⟩ := hm
        have h1 := List.sizeOf_lt_of_mem hkv
        have h2 : 0 < sizeOf kv.2 := by
          cases kv.2 <;>
            simp only [Value.null.sizeOf_spec, Value.str.sizeOf_spec,
              Value.int.sizeOf_spec, Value.obj.sizeOf_spec,
              Value.list.sizeOf_spec, Value.dict.sizeOf_spec] <;>
            omega
        obtain ⟨k, v⟩ := kv
        rw [← hd]
        simp only [Value.str.sizeOf_spec, Value.dict.sizeOf_spec,
          Prod.mk.sizeOf_spec] at *
        omega
  exact Prod.Lex.left _ _ hlt
· exact Prod.Lex.right _ (Prod.Lex.right _ (by omega))

/-- The generator expression inside `marshal`:
`((k, marshal(data, v) if isinstance(v, dict) else v.output(k, data))
  for k, v in fields.items())`. -/
def marshalItems : Value → FieldMapping → List (String × Result)
  | _, [] => []
  | data, (name, entry) :: rest =>
      (name, marshalEntry data name entry) :: marshalItems data rest
termination_by data fields => (sizeOf data, sizeOf fields, 1)
decreasing_by
· exact Prod.Lex.right _ (Prod.Lex.left _ _ (by
    simp only [List.cons.sizeOf_spec, Prod.mk.sizeOf_spec]
    omega))
· exact Prod.Lex.right _ (Prod.Lex.left _ _ (by
    simp only [List.cons.sizeOf_spec, Prod.mk.sizeOf_spec]
    omega))

/-- One item of the `OrderedDict` built by `marshal`: a nested field mapping
is marshaled against the same `data`; a field object contributes
`v.output(k, data)`. -/
def marshalEntry : Value → String → FieldEntry → Result
  | data, _, FieldEntry.nested m => marshal data m
  | data, name, FieldEntry.field f => Result.value (f name data)
termination_by data name e => (sizeOf data, sizeOf e, 1)
decreasing_by
· exact Prod.Lex.right _ (Prod.Lex.left _ _ (by
    simp only [FieldEntry.nested.sizeOf_spec]
    omega))

end

/-- Source: `BaseSerializer.__init__` stores the wrapped input value in
`self._data` and the (per-instance) field mapping in `self.fields`. -/
structure BaseSerializer where
  _data : Value
  fields : FieldMapping

/-- Source: `BaseSerializer.to_data` returns `marshal(self._data, self.fields)`. -/
def BaseSerializer.to_data (s : BaseSerializer) : Result :=
  marshal s._data s.fields

/-- Source: the `data` property returns `self.to_data()`. -/
def BaseSerializer.data (s : BaseSerializer) : Result :=
  s.to_data

mutual

/-- Holds when every ordered mapping at the top structural level of a marshal
result (descending through the list layers produced for iterable inputs, but
not into nested per-field values) has exactly `names` as its keys, in order. -/
def topKeysAre (names : List String) : Result → Bool
  | .dict l => decide (l.map Prod.fst = names)
  | .list rs => topKeysAreList names rs
  | .value _ => false

/-- `topKeysAre` on every element of a list of results. -/
def topKeysAreList (names : List String) : List Result → Bool
  | [] => true
  | r :: rs => topKeysAre names r && topKeysAreList names rs

end

/-- A class attribute's value as the metaclass sees it: either a field
specification (an instance or subclass of `base.Field`, carrying payload `α`)
or any other attribute value. -/
inductive Attr (α : Type) where
  | field : α → Attr α
  | plain : Attr α

/-- Source: `is_instance_or_subclass(val, base.Field)`, specialised to the
test performed in `_get_declared_fields`. -/
def is_instance_or_subclass : Attr α → Bool
  | .field _ => true
  | .plain => false

/-- A base class as `_get_declared_fields` inspects it: either it carries a
compiled `_base_fields` mapping (`hasattr(base_class, '_base_fields')`) or it
does not (e.g. `object`). -/
inductive BaseClass (α : Type) where
  | withFields : List (String × α) → BaseClass α
  | plain : BaseClass α

/-- One `OrderedDict.__setitem__` on an association list: re-setting an
existing key updates the value at the key's existing position; a new key is
appended at the end. -/
def odInsert (l : List (String × α)) (k : String) (v : α) : List (String × α) :=
  if l.any (fun p => p.1 == k) then
    l.map (fun p => if p.1 == k then (k, v) else p)
  else
    l ++ [(k, v)]

/-- `OrderedDict(pairs)`: insert the pairs left to right. -/
def orderedDictOfPairs (pairs : List (String × α)) : List (String × α) :=
  pairs.foldl (fun acc p => odInsert acc p.1 p.2) []

/-- The list comprehension in `_get_declared_fields`: the `(field_name, val)`
pairs of the class's own attribute dict, in declaration order, restricted to
the ones satisfying `is_instance_or_subclass(val, base.Field)`. -/
def declaredPairs (attrs : List (String × Attr α)) : List (String × α) :=
  attrs.filterMap (fun p =>
    match p.2 with
    | .field f => some (p.1, f)
    | .plain => none)

/-- The merged pair list built by the loop in `_get_declared_fields`:
`for base_class in bases[::-1]: declared = base._base_fields.items() + declared`,
starting from the class's own declared pairs. -/
def mergedPairs (bases : List (BaseClass α)) (attrs : List (String × Attr α)) :
    List (String × α) :=
  bases.reverse.foldl
    (fun acc b =>
      match b with
      | .withFields bf => bf ++ acc
      | .plain => acc)
    (declaredPairs attrs)

/-- Source: `_get_declared_fields(bases, attrs)` returns
`OrderedDict(declared)` where `declared` is the merged pair list. The
metaclass `SerializerMeta.__new__` stores this as the class's `_base_fields`. -/
def _get_declared_fields (bases : List (BaseClass α))
    (attrs : List (String × Attr α)) : List (String × α) :=
  orderedDictOfPairs (mergedPairs bases attrs)

/-- First-occurrence key sequence: the keys of `l` that are not already in
`seen`, each kept once, at the position of its earliest occurrence. -/
def newKeys : List String → List String → List String
  | _, [] => []
  | seen, k :: rest =>
      if k ∈ seen then newKeys seen rest else k :: newKeys (k :: seen) rest

/-- A field object as `BaseSerializer.get_fields` mutates it: the `parent`
back-reference (`None` until first bound) and an opaque surrogate for all of
the field's remaining state. -/
structure FieldObj where
  parent : Option Nat
  content : Nat
deriving DecidableEq

/-- The default object a dangling heap read returns; never reached under the
validity hypotheses used below. -/
def defaultFieldObj : FieldObj := ⟨none, 0⟩

/-- An explicit object heap: field objects addressed by list index, so that
aliasing and `copy.deepcopy`'s fresh allocation are observable. -/
abbrev Heap := List FieldObj

/-- Source: `copy.deepcopy(self._base_fields)` applied to a mapping of field
objects: every template entry is copied into a freshly allocated object
(appended at the end of the heap), keeping names and their order. -/
def deepcopyFields (h : Heap) : List (String × Nat) → Heap × List (String × Nat)
  | [] => (h, [])
  | (n, a) :: rest =>
      let objCopy := h.getD a defaultFieldObj
      let h1 := h ++ [objCopy]
      let a1 := h.length
      let step := deepcopyFields h1 rest
      (step.1, (n, a1) :: step.2)

/-- Source: `if not field_obj.parent: field_obj.parent = self` for one field
object, mutating the heap in place. -/
def bindParent (h : Heap) (selfId : Nat) (a : Nat) : Heap :=
  match (h.getD a defaultFieldObj).parent with
  | some _ => h
  | none => h.set a { h.getD a defaultFieldObj with parent := some selfId }

/-- Source: `BaseSerializer.get_fields`: deep-copy the class template
`self._base_fields`, then bind each copied field's `parent` to this instance
(identified by `selfId`), and return the copied mapping. -/
def get_fields (h : Heap) (selfId : Nat) (tmpl : List (String × Nat)) :
    Heap × List (String × Nat) :=
  let copied := deepcopyFields h tmpl
  (copied.2.foldl (fun hh p => bindParent hh selfId p.2) copied.1, copied.2)

/-- The addresses `deepcopyFields` hands out for a template, starting at the
allocation frontier `s`: fresh consecutive indices, one per template entry. -/
def copyList (s : Nat) : List (String × Nat) → List (String × Nat)
  | [] => []
  | (n, _) :: rest => (n, s) :: copyList (s + 1) rest

/-- The error raised by validators; carries a human-readable message. -/
structure ValidationError where
  message : String
deriving DecidableEq

/-- Modelled from the spec: the repository's `validate` module is not under
`src/` (only `src/tests/test_validate.py` exercises it). Per spec section 4.4,
the accepted email shape is the coarse local-part/domain structure: exactly
one `@` separator, a non-empty local part, and a non-empty domain containing
a `.` separator. -/
def email_shape (s : String) : Bool :=
  let cs := s.toList
  let localPart := cs.takeWhile (fun c => c != '@')
  match cs.dropWhile (fun c => c != '@') with
  | [] => false
  | _ :: domain =>
      !localPart.isEmpty && !domain.isEmpty &&
        domain.contains '.' && !domain.contains '@'

/-- Modelled from the spec: `validate_email(value) -> value` returns the input
unchanged when it matches the accepted email shape and fails with
`ValidationError` otherwise. -/
def validate_email (value : String) : Except ValidationError String :=
  if email_shape value then Except.ok value
  else Except.error ⟨"Invalid email address."⟩

/-! ## Helper lemmas about `marshal` -/

theorem marshal_def (data : Value) (fields : FieldMapping) :
    marshal data fields =
      if _is_iterable_but_not_string data then
        Result.list ((iterate data).map (fun d => marshal d fields))
      else
        Result.dict (marshalItems data fields) := by
  rw [marshal.eq_def]
  dsimp only
  rw [List.attach_map_val (iterate data) (fun d => marshal d fields)]

theorem marshalItems_eq_map (data : Value) (fields : FieldMapping) :
    marshalItems data fields =
      fields.map (fun kv => (kv.1, marshalEntry data kv.1 kv.2)) := by
  induction fields with
  | nil => rw [marshalItems.eq_def]; rfl
  | cons kv rest ih =>
      obtain ⟨n, e⟩ := kv
      rw [marshalItems.eq_def]
      simp only [List.map_cons]
      exact congrArg _ ih

theorem marshalItems_keys (data : Value) (fields : FieldMapping) :
    (marshalItems data fields).map Prod.fst = fields.map Prod.fst := by
  rw [marshalItems_eq_map, List.map_map]
  rfl

theorem value_sizeOf_pos (v : Value) : 0 < sizeOf v := by
  cases v <;>
    simp only [Value.null.sizeOf_spec, Value.str.sizeOf_spec,
      Value.int.sizeOf_spec, Value.obj.sizeOf_spec, Value.list.sizeOf_spec,
      Value.dict.sizeOf_spec] <;>
    omega

theorem topKeysAreList_eq_true_iff (names : List String) (rs : List Result) :
    topKeysAreList names rs = true ↔ ∀ r ∈ rs, topKeysAre names r = true := by
  induction rs with
  | nil => simp [topKeysAreList]
  | cons r rs ih =>
      rw [topKeysAreList.eq_def]
      simp only [Bool.and_eq_true, ih, List.mem_cons]
      constructor
      · rintro ⟨h1, h2⟩ x (rfl | hx)
        · exact h1
        · exact h2 x hx
      · intro h
        exact ⟨h r (Or.inl rfl), fun x hx => h x (Or.inr hx)⟩

theorem marshal_topKeys_aux :
    ∀ (n : Nat) (data : Value), sizeOf data ≤ n →
      ∀ fields : FieldMapping,
        topKeysAre (fields.map Prod.fst) (marshal data fields) = true := by
  intro n
  induction n with
  | zero =>
      intro data h
      exact absurd h (by have := value_sizeOf_pos data; omega)
  | succ n ih =>
      intro data hle fields
      rw [marshal_def]
      cases data with
      | null =>
          simp only [_is_iterable_but_not_string, Bool.false_eq_true,
            if_false, topKeysAre, marshalItems_keys, decide_eq_true_eq]
      | str s =>
          simp only [_is_iterable_but_not_string, Bool.false_eq_true,
            if_false, topKeysAre, marshalItems_keys, decide_eq_true_eq]
      | int i =>
          simp only [_is_iterable_but_not_string, Bool.false_eq_true,
            if_false, topKeysAre, marshalItems_keys, decide_eq_true_eq]
      | obj l =>
          simp only [_is_iterable_but_not_string, Bool.false_eq_true,
            if_false, topKeysAre, marshalItems_keys, decide_eq_true_eq]
      | list vs =>
          simp only [_is_iterable_but_not_string, iterate, if_true]
          rw [topKeysAre]
          rw [topKeysAreList_eq_true_iff]
          intro r hr
          obtain ⟨d, hd, rfl⟩ := List.mem_map.1 hr
          apply ih d ?_ fields
          have h1 := List.sizeOf_lt_of_mem hd
          have h2 : sizeOf (Value.list vs) = 1 + sizeOf vs := by
            simp only [Value.list.sizeOf_spec]
          omega
      | dict kvs =>
          simp only [_is_iterable_but_not_string, iterate, if_true,
            List.map_map]
          rw [topKeysAre]
          rw [topKeysAreList_eq_true_iff]
          intro r hr
          obtain ⟨kv, hkv, rfl⟩ := List.mem_map.1 hr
          apply ih (Value.str kv.1) ?_ fields
          have h1 := List.sizeOf_lt_of_mem hkv
          have h2 : sizeOf (Value.dict kvs) = 1 + sizeOf kvs := by
            simp only [Value.dict.sizeOf_spec]
          have h3 : sizeOf kv = 1 + sizeOf kv.1 + sizeOf kv.2 := by
            obtain ⟨a, b⟩ := kv
            simp only [Prod.mk.sizeOf_spec]
          have h4 : sizeOf (Value.str kv.1) = 1 + sizeOf kv.1 := by
            simp only [Value.str.sizeOf_spec]
          omega

theorem marshalItems_mem_of_mem (data : Value) (fields : FieldMapping)
    (name : String) (e : FieldEntry) (hmem : (name, e) ∈ fields) :
    (name, marshalEntry data name e) ∈ marshalItems data fields := by
  rw [marshalItems_eq_map]
  exact List.mem_map.2 ⟨(name, e), hmem, rfl⟩

/-! ## Claim theorems about `marshal` and `.data` -/

/-- C1: for every schema instance (any bound input value and any compiled
field mapping `[f1..fn]`), the ordered result of the `.data` accessor has its
keys in exactly the declared order `f1..fn`; when the input is a sequence,
every per-element result mapping (through any depth of sequence nesting) has
that same key order. -/
theorem data_keys_follow_declared_order (s : BaseSerializer) :
    topKeysAre (s.fields.map Prod.fst) s.data = true :=
  marshal_topKeys_aux (sizeOf s._data) s._data (Nat.le_refl _) s.fields

/-- C2: for every list of input values (including the empty list) and every
field mapping, `marshal` on the list equals the element-wise map of `marshal`
over the list, in the same order. -/
theorem marshal_distributes_over_list (vs : List Value) (fields : FieldMapping) :
    marshal (Value.list vs) fields =
      Result.list (vs.map (fun v => marshal v fields)) := by
  rw [marshal_def]
  simp [_is_iterable_but_not_string, iterate]

/-- C4: for every string input value and every field mapping, `marshal`
treats the string as a scalar source object: it returns a single ordered
mapping whose entry for a field object is that field's `output` applied to
the whole string, and it never returns a list (no distribution over the
string's characters). -/
theorem marshal_string_is_scalar (s : String) (fields : FieldMapping) :
    marshal (Value.str s) fields =
      Result.dict (fields.map (fun kv => (kv.1, marshalEntry (Value.str s) kv.1 kv.2))) ∧
    (∀ name f, marshalEntry (Value.str s) name (FieldEntry.field f) =
      Result.value (f name (Value.str s))) ∧
    ∀ rs, marshal (Value.str s) fields ≠ Result.list rs := by
  have h : marshal (Value.str s) fields =
      Result.dict (fields.map (fun kv => (kv.1, marshalEntry (Value.str s) kv.1 kv.2))) := by
    rw [marshal_def]
    simp only [_is_iterable_but_not_string, Bool.false_eq_true, if_false]
    rw [marshalItems_eq_map]
  refine ⟨h, fun name f => by rw [marshalEntry], fun rs hrs => ?_⟩
  rw [h] at hrs
  exact Result.noConfusion hrs

/-- C5: for every non-sequence input value `data` and every field mapping
containing a pair `(name, m)` with `m` a nested field mapping, the result of
`marshal data fields` is the ordered mapping of its items, and the item for
`name` is `marshal data m` applied to the same top-level `data` value. -/
theorem marshal_nested_uses_same_data (data : Value) (fields : FieldMapping)
    (name : String) (m : FieldMapping)
    (hscalar : _is_iterable_but_not_string data = false)
    (hmem : (name, FieldEntry.nested m) ∈ fields) :
    marshal data fields = Result.dict (marshalItems data fields) ∧
    (name, marshal data m) ∈ marshalItems data fields := by
  constructor
  · rw [marshal_def, hscalar]
    simp
  · have h := marshalItems_mem_of_mem data fields name (FieldEntry.nested m) hmem
    rw [marshalEntry] at h
    exact h

/-- Witness for C5 at a concrete input: the integer `0` is not iterable, and
a mapping containing the nested entry `("n", [])` marshals `0` itself against
the nested mapping. -/
theorem marshal_nested_uses_same_data_witness :
    marshal (Value.int 0) [("n", FieldEntry.nested [])] =
      Result.dict (marshalItems (Value.int 0) [("n", FieldEntry.nested [])]) ∧
    ("n", marshal (Value.int 0) []) ∈
      marshalItems (Value.int 0) [("n", FieldEntry.nested [])] :=
  marshal_nested_uses_same_data (Value.int 0) [("n", FieldEntry.nested [])]
    "n" [] rfl (List.mem_singleton.2 rfl)

/-- C9: for every mapping value passed as `data` and every field mapping,
`marshal` treats the mapping as an iterable of its keys: the result is the
list of `marshal(key, fields)` for each key in iteration order, and never a
single ordered key-value result for the mapping itself. -/
theorem marshal_dict_iterates_over_keys (kvs : List (String × Value))
    (fields : FieldMapping) :
    marshal (Value.dict kvs) fields =
      Result.list (kvs.map (fun kv => marshal (Value.str kv.1) fields)) ∧
    ∀ l, marshal (Value.dict kvs) fields ≠ Result.dict l := by
  have h : marshal (Value.dict kvs) fields =
      Result.list (kvs.map (fun kv => marshal (Value.str kv.1) fields)) := by
    rw [marshal_def]
    simp [_is_iterable_but_not_string, iterate, List.map_map]
  refine ⟨h, fun l hl => ?_⟩
  rw [h] at hl
  exact Result.noConfusion hl

/-! ## Helper lemmas about `OrderedDict` construction -/

theorem odInsert_of_not_mem {l : List (String × α)} {k : String} (v : α)
    (h : k ∉ l.map Prod.fst) : odInsert l k v = l ++ [(k, v)] := by
  unfold odInsert
  rw [if_neg]
  simp only [List.any_eq_true, beq_iff_eq, not_exists]
  intro p
  rintro ⟨hp, rfl⟩
  exact h (List.mem_map.2 ⟨p, hp, rfl⟩)

theorem odInsert_keys_of_mem {l : List (String × α)} {k : String} (v : α)
    (h : k ∈ l.map Prod.fst) :
    (odInsert l k v).map Prod.fst = l.map Prod.fst := by
  unfold odInsert
  rw [if_pos]
  · rw [List.map_map]
    apply List.map_congr_left
    intro p _
    by_cases hp : p.1 = k
    · simp [hp]
    · simp [hp]
  · obtain ⟨p, hp, hpk⟩ := List.mem_map.1 h
    simp only [List.any_eq_true, beq_iff_eq]
    exact ⟨p, hp, hpk⟩

theorem lookup_map_replace_self {l : List (String × α)} {k : String} (v : α)
    (h : k ∈ l.map Prod.fst) :
    (l.map (fun p => if p.1 == k then (k, v) else p)).lookup k = some v := by
  induction l with
  | nil => simp at h
  | cons p rest ih =>
      simp only [List.map_cons]
      by_cases hp : p.1 = k
      · simp [hp]
      · rw [if_neg (by simp [hp])]
        rw [List.lookup_cons]
        have hk : (k == p.1) = false := by simp [Ne.symm hp]
        rw [hk]
        apply ih
        simp only [List.map_cons, List.mem_cons] at h
        exact h.resolve_left (fun hc => hp hc.symm)

theorem lookup_map_replace_ne {l : List (String × α)} {k : String} (v : α)
    {name : String} (hne : name ≠ k) :
    (l.map (fun p => if p.1 == k then (k, v) else p)).lookup name =
      l.lookup name := by
  induction l with
  | nil => simp
  | cons p rest ih =>
      simp only [List.map_cons]
      by_cases hp : p.1 = k
      · rw [if_pos (by simp [hp])]
        rw [List.lookup_cons, List.lookup_cons]
        have h1 : (name == k) = false := by simp [hne]
        have h2 : (name == p.1) = false := by simp [hp, hne]
        rw [h1, h2]
        exact ih
      · rw [if_neg (by simp [hp])]
        rw [List.lookup_cons, List.lookup_cons]
        cases hnp : name == p.1 with
        | true => rfl
        | false => exact ih

theorem odInsert_lookup_self (l : List (String × α)) (k : String) (v : α) :
    (odInsert l k v).lookup k = some v := by
  by_cases h : k ∈ l.map Prod.fst
  · unfold odInsert
    rw [if_pos]
    · exact lookup_map_replace_self v h
    · obtain ⟨p, hp, hpk⟩ := List.mem_map.1 h
      simp only [List.any_eq_true, beq_iff_eq]
      exact ⟨p, hp, hpk⟩
  · rw [odInsert_of_not_mem v h, List.lookup_append]
    have hnone : l.lookup k = none := by
      rw [List.lookup_eq_none_iff]
      intro p hp
      simp only [bne_iff_ne, ne_eq]
      intro hc
      exact h (List.mem_map.2 ⟨p, hp, hc.symm⟩)
    rw [hnone]
    simp

theorem odInsert_lookup_ne (l : List (String × α)) (k : String) (v : α)
    {name : String} (hne : name ≠ k) :
    (odInsert l k v).lookup name = l.lookup name := by
  unfold odInsert
  by_cases h : (l.any fun p => p.1 == k) = true
  · rw [if_pos h]
    exact lookup_map_replace_ne v hne
  · rw [if_neg h, List.lookup_append]
    have : ([(k, v)] : List (String × α)).lookup name = none := by
      rw [List.lookup_cons]
      have : (name == k) = false := by simp [hne]
      rw [this]
      rfl
    rw [this, Option.or_none]

theorem foldl_odInsert_lookup (pairs : List (String × α)) :
    ∀ (acc : List (String × α)) (name : String),
      (pairs.foldl (fun acc p => odInsert acc p.1 p.2) acc).lookup name =
        (pairs.reverse.lookup name).or (acc.lookup name) := by
  induction pairs with
  | nil => intro acc name; simp
  | cons p rest ih =>
      intro acc name
      simp only [List.foldl_cons, List.reverse_cons]
      rw [ih, List.lookup_append, Option.or_assoc]
      congr 1
      by_cases h : name = p.1
      · subst h
        rw [odInsert_lookup_self]
        rw [List.lookup_cons]
        simp
      · rw [odInsert_lookup_ne _ _ _ h]
        rw [List.lookup_cons]
        have : (name == p.1) = false := by simp [h]
        rw [this]
        simp

theorem newKeys_congr (l : List String) :
    ∀ s1 s2 : List String, (∀ x, x ∈ s1 ↔ x ∈ s2) →
      newKeys s1 l = newKeys s2 l := by
  induction l with
  | nil => intro s1 s2 _; rw [newKeys, newKeys]
  | cons k rest ih =>
      intro s1 s2 h
      rw [newKeys, newKeys]
      by_cases hk : k ∈ s1
      · rw [if_pos hk, if_pos ((h k).1 hk)]
        exact ih s1 s2 h
      · rw [if_neg hk, if_neg (fun hc => hk ((h k).2 hc))]
        refine congrArg _ (ih (k :: s1) (k :: s2) ?_)
        intro x
        simp [h x]

theorem foldl_odInsert_keys (pairs : List (String × α)) :
    ∀ acc : List (String × α),
      (pairs.foldl (fun acc p => odInsert acc p.1 p.2) acc).map Prod.fst =
        acc.map Prod.fst ++ newKeys (acc.map Prod.fst) (pairs.map Prod.fst) := by
  induction pairs with
  | nil =>
      intro acc
      simp only [List.foldl_nil, List.map_nil]
      rw [newKeys]
      simp
  | cons p rest ih =>
      intro acc
      simp only [List.foldl_cons, List.map_cons]
      rw [ih, newKeys]
      by_cases h : p.1 ∈ acc.map Prod.fst
      · rw [odInsert_keys_of_mem _ h, if_pos h]
      · rw [if_neg h]
        have hkeys : (odInsert acc p.1 p.2).map Prod.fst =
            acc.map Prod.fst ++ [p.1] := by
          rw [odInsert_of_not_mem _ h]
          simp
        rw [hkeys, List.append_assoc]
        congr 1
        rw [List.singleton_append]
        refine congrArg _ (newKeys_congr _ _ _ ?_)
        intro x
        simp only [List.mem_append, List.mem_singleton, List.mem_cons,
          List.not_mem_nil, or_false]
        exact or_comm

theorem foldl_odInsert_of_nodup (pairs : List (String × α)) :
    ∀ acc : List (String × α),
      ((acc ++ pairs).map Prod.fst).Nodup →
      pairs.foldl (fun acc p => odInsert acc p.1 p.2) acc = acc ++ pairs := by
  induction pairs with
  | nil => intro acc _; simp
  | cons p rest ih =>
      intro acc h
      simp only [List.foldl_cons]
      have hsplit : ((acc ++ p :: rest).map Prod.fst) =
          acc.map Prod.fst ++ p.1 :: rest.map Prod.fst := by simp
      rw [hsplit] at h
      have hnotmem : p.1 ∉ acc.map Prod.fst := by
        rw [List.nodup_append] at h
        intro hc
        exact h.2.2 hc (List.mem_cons_self _ _)
      rw [odInsert_of_not_mem _ hnotmem]
      rw [ih (acc ++ [(p.1, p.2)]) ?_]
      · simp
      · have : ((acc ++ [(p.1, p.2)]) ++ rest).map Prod.fst =
            acc.map Prod.fst ++ p.1 :: rest.map Prod.fst := by simp
        rw [this]
        exact h

theorem orderedDictOfPairs_lookup (pairs : List (String × α)) (name : String) :
    (orderedDictOfPairs pairs).lookup name = pairs.reverse.lookup name := by
  unfold orderedDictOfPairs
  rw [foldl_odInsert_lookup]
  simp

theorem orderedDictOfPairs_keys (pairs : List (String × α)) :
    (orderedDictOfPairs pairs).map Prod.fst = newKeys [] (pairs.map Prod.fst) := by
  unfold orderedDictOfPairs
  rw [foldl_odInsert_keys]
  simp

theorem orderedDictOfPairs_of_nodup (pairs : List (String × α))
    (h : (pairs.map Prod.fst).Nodup) : orderedDictOfPairs pairs = pairs := by
  unfold orderedDictOfPairs
  rw [foldl_odInsert_of_nodup pairs [] (by simpa using h)]
  simp

theorem newKeys_append (l1 l2 : List String) :
    ∀ s, newKeys s (l1 ++ l2) = newKeys s l1 ++ newKeys (s ++ l1) l2 := by
  induction l1 with
  | nil =>
      intro s
      rw [newKeys]
      rw [List.nil_append, List.nil_append]
      exact newKeys_congr _ _ _ (by intro x; simp)
  | cons k rest ih =>
      intro s
      rw [List.cons_append, newKeys, newKeys]
      by_cases hk : k ∈ s
      · rw [if_pos hk, if_pos hk, ih s]
        refine congrArg _ (newKeys_congr _ _ _ ?_)
        intro x
        simp only [List.mem_append, List.mem_cons]
        constructor
        · rintro (hs | hr)
          · exact Or.inl hs
          · exact Or.inr (Or.inr hr)
        · rintro (hs | rfl | hr)
          · exact Or.inl hs
          · exact Or.inl hk
          · exact Or.inr hr
      · rw [if_neg hk, if_neg hk, ih (k :: s), List.cons_append]
        refine congrArg _ (congrArg _ (newKeys_congr _ _ _ ?_))
        intro x
        simp only [List.mem_append, List.mem_cons]
        tauto

theorem newKeys_of_nodup_disjoint (l : List String) :
    ∀ s, l.Nodup → (∀ x ∈ l, x ∉ s) → newKeys s l = l := by
  induction l with
  | nil => intro s _ _; rw [newKeys]
  | cons k rest ih =>
      intro s hn hd
      rw [newKeys, if_neg (hd k (List.mem_cons_self _ _))]
      refine congrArg _ (ih (k :: s) (List.Nodup.of_cons hn) ?_)
      intro x hx
      simp only [List.mem_cons, not_or]
      constructor
      · intro hc
        subst hc
        exact (List.nodup_cons.1 hn).1 hx
      · exact hd x (List.mem_cons_of_mem _ hx)

/-! ## Claim theorems about schema compilation -/

/-- C3: for every schema definition B extending a schema definition A, where
A declares fields `[a1, a2]` and B newly declares `[b1]` (all names distinct),
the compiled field mapping of B is exactly `[a1, a2, b1]`: A's fields in A's
declared order followed by B's newly declared field. -/
theorem compiled_fields_inherit_then_declare {α : Type} (a1 a2 b1 : String)
    (fa1 fa2 fb1 : α) (h12 : a1 ≠ a2) (h13 : a1 ≠ b1) (h23 : a2 ≠ b1) :
    _get_declared_fields [BaseClass.withFields [(a1, fa1), (a2, fa2)]]
        [(b1, Attr.field fb1)] =
      [(a1, fa1), (a2, fa2), (b1, fb1)] := by
  have hm : mergedPairs [BaseClass.withFields [(a1, fa1), (a2, fa2)]]
      [(b1, Attr.field fb1)] = [(a1, fa1), (a2, fa2), (b1, fb1)] := by
    simp [mergedPairs, declaredPairs]
  unfold _get_declared_fields
  rw [hm]
  apply orderedDictOfPairs_of_nodup
  simp [h12, h13, h23]

/-- Witness for C3: a concrete two-field base schema and a one-field
extending schema compile to the three fields in base-then-declared order. -/
theorem compiled_fields_inherit_then_declare_witness :
    _get_declared_fields
        [BaseClass.withFields [("a1", (10 : Nat)), ("a2", 11)]]
        [("b1", Attr.field 12)] =
      [("a1", 10), ("a2", 11), ("b1", 12)] :=
  compiled_fields_inherit_then_declare "a1" "a2" "b1" 10 11 12
    (by decide) (by decide) (by decide)

/-- C7: during field-mapping compilation, when the same field name occurs
more than once in the merged (inherited-then-declared) pair list, the
resulting mapping binds the name to the later (last) occurrence's value,
while the mapping's key order keeps every name at its earliest occurrence
(`newKeys [] keysList` is exactly the first-occurrence subsequence of the
merged key list). -/
theorem duplicate_key_last_value_first_position {α : Type}
    (bases : List (BaseClass α)) (attrs : List (String × Attr α))
    (name : String)
    (hdup : 1 < ((mergedPairs bases attrs).map Prod.fst).count name) :
    (_get_declared_fields bases attrs).lookup name =
      (mergedPairs bases attrs).reverse.lookup name ∧
    (_get_declared_fields bases attrs).map Prod.fst =
      newKeys [] ((mergedPairs bases attrs).map Prod.fst) := by
  exact ⟨orderedDictOfPairs_lookup _ name, orderedDictOfPairs_keys _⟩

/-- Witness for C7: the name "a" occurs twice in the merged list
`[("a", 1), ("a", 2)]`; the compiled mapping looks "a" up to the later value
`2` while keeping "a" at the first position. -/
theorem duplicate_key_last_value_first_position_witness :
    (_get_declared_fields [BaseClass.withFields [("a", (1 : Nat))]]
        [("a", Attr.field 2)]).lookup "a" =
      (mergedPairs [BaseClass.withFields [("a", (1 : Nat))]]
        [("a", Attr.field 2)]).reverse.lookup "a" ∧
    (_get_declared_fields [BaseClass.withFields [("a", (1 : Nat))]]
        [("a", Attr.field 2)]).map Prod.fst =
      newKeys [] ((mergedPairs [BaseClass.withFields [("a", (1 : Nat))]]
        [("a", Attr.field 2)]).map Prod.fst) :=
  duplicate_key_last_value_first_position
    [BaseClass.withFields [("a", (1 : Nat))]] [("a", Attr.field 2)] "a"
    (by decide)

/-- C6 is false on the code: when B overrides the inherited name "a1", the
compiled mapping of B keeps "a1" at the inherited (first) position with B's
value, so the key order is `["a1", "a2"]`, not the claimed append-at-the-end
order `["a2", "a1"]`. -/
theorem override_appended_at_end_counterexample :
    _get_declared_fields [BaseClass.withFields [("a1", (0 : Nat)), ("a2", 1)]]
        [("a1", Attr.field 2)] = [("a1", 2), ("a2", 1)] ∧
    (_get_declared_fields [BaseClass.withFields [("a1", (0 : Nat)), ("a2", 1)]]
        [("a1", Attr.field 2)]).map Prod.fst ≠ ["a2", "a1"] := by
  constructor
  · decide
  · decide

/-- C6 amended: for every schema definition B extending A, if B declares a
field with the same name `n` as a field inherited from A, the compiled field
mapping of B keeps `n` at the inherited field's original position (A's keys
first, in A's order, then B's genuinely new keys), bound to B's overriding
field object (the last value B declares under `n`). -/
theorem override_keeps_inherited_position {α : Type}
    (afields : List (String × α)) (battrs : List (String × Attr α))
    (n : String) (f : α)
    (hnodup : (afields.map Prod.fst).Nodup)
    (hmem : n ∈ afields.map Prod.fst)
    (hlast : (declaredPairs battrs).reverse.lookup n = some f) :
    (_get_declared_fields [BaseClass.withFields afields] battrs).lookup n =
      some f ∧
    (_get_declared_fields [BaseClass.withFields afields] battrs).map Prod.fst =
      afields.map Prod.fst ++
        newKeys (afields.map Prod.fst) ((declaredPairs battrs).map Prod.fst) ∧
    List.indexOf n
        ((_get_declared_fields [BaseClass.withFields afields] battrs).map
          Prod.fst) =
      List.indexOf n (afields.map Prod.fst) := by
  have hm : mergedPairs [BaseClass.withFields afields] battrs =
      afields ++ declaredPairs battrs := by
    simp [mergedPairs]
  have hkeys : (_get_declared_fields [BaseClass.withFields afields]
      battrs).map Prod.fst =
      afields.map Prod.fst ++
        newKeys (afields.map Prod.fst) ((declaredPairs battrs).map Prod.fst) := by
    unfold _get_declared_fields
    rw [hm, orderedDictOfPairs_keys, List.map_append, newKeys_append]
    rw [newKeys_of_nodup_disjoint _ [] hnodup (by intro x _; simp)]
    refine congrArg _ (newKeys_congr _ _ _ ?_)
    intro x
    simp
  refine ⟨?_, hkeys, ?_⟩
  · unfold _get_declared_fields
    rw [hm, orderedDictOfPairs_lookup, List.reverse_append,
      List.lookup_append, hlast]
    rfl
  · rw [hkeys]
    exact List.indexOf_append_of_mem hmem

/-- Witness for the amended C6: B overrides the inherited name "a1"; the
compiled mapping binds "a1" to B's value `2`, keeps A's key order prefix, and
leaves "a1" at index 0, its inherited position. -/
theorem override_keeps_inherited_position_witness :
    (_get_declared_fields
        [BaseClass.withFields [("a1", (0 : Nat)), ("a2", 1)]]
        [("a1", Attr.field 2)]).lookup "a1" = some 2 ∧
    (_get_declared_fields
        [BaseClass.withFields [("a1", (0 : Nat)), ("a2", 1)]]
        [("a1", Attr.field 2)]).map Prod.fst =
      (([("a1", (0 : Nat)), ("a2", 1)] : List (String × Nat)).map Prod.fst) ++
        newKeys (([("a1", (0 : Nat)), ("a2", 1)] : List (String × Nat)).map
          Prod.fst)
          ((declaredPairs [("a1", Attr.field (2 : Nat))]).map Prod.fst) ∧
    List.indexOf "a1"
        ((_get_declared_fields
          [BaseClass.withFields [("a1", (0 : Nat)), ("a2", 1)]]
          [("a1", Attr.field 2)]).map Prod.fst) =
      List.indexOf "a1"
        (([("a1", (0 : Nat)), ("a2", 1)] : List (String × Nat)).map Prod.fst) :=
  override_keeps_inherited_position [("a1", 0), ("a2", 1)]
    [("a1", Attr.field 2)] "a1" 2 (by decide) (by decide) (by decide)

/-! ## Helper lemmas about `get_fields` and the object heap -/

theorem copyList_map_fst (tmpl : List (String × Nat)) :
    ∀ s, (copyList s tmpl).map Prod.fst = tmpl.map Prod.fst := by
  induction tmpl with
  | nil => intro s; rw [copyList]
  | cons p rest ih =>
      obtain ⟨n, a⟩ := p
      intro s
      rw [copyList]
      simp only [List.map_cons]
      exact congrArg _ (ih (s + 1))

theorem copyList_length (tmpl : List (String × Nat)) :
    ∀ s, (copyList s tmpl).length = tmpl.length := by
  induction tmpl with
  | nil => intro s; rw [copyList]
  | cons p rest ih =>
      obtain ⟨n, a⟩ := p
      intro s
      rw [copyList]
      simp only [List.length_cons]
      exact congrArg _ (ih (s + 1))

theorem copyList_getD (tmpl : List (String × Nat)) :
    ∀ s i, i < tmpl.length →
      (copyList s tmpl).getD i ("", 0) = ((tmpl.getD i ("", 0)).1, s + i) := by
  induction tmpl with
  | nil => intro s i hi; simp at hi
  | cons p rest ih =>
      obtain ⟨n, a⟩ := p
      intro s i hi
      rw [copyList]
      cases i with
      | zero => simp
      | succ i =>
          simp only [List.getD_cons_succ]
          rw [ih (s + 1) i (by simpa using hi)]
          have : s + 1 + i = s + (i + 1) := by omega
          rw [this]

theorem getD_map_of_lt (f : (String × Nat) → FieldObj) (tmpl : List (String × Nat)) :
    ∀ i, i < tmpl.length →
      (tmpl.map f).getD i defaultFieldObj = f (tmpl.getD i ("", 0)) := by
  induction tmpl with
  | nil => intro i hi; simp at hi
  | cons p rest ih =>
      intro i hi
      cases i with
      | zero => simp
      | succ i =>
          simp only [List.map_cons, List.getD_cons_succ]
          exact ih i (by simpa using hi)

theorem deepcopyFields_spec (tmpl : List (String × Nat)) :
    ∀ h : Heap, (∀ p ∈ tmpl, p.2 < h.length) →
      deepcopyFields h tmpl =
        (h ++ tmpl.map (fun p => h.getD p.2 defaultFieldObj),
         copyList h.length tmpl) := by
  induction tmpl with
  | nil =>
      intro h _
      rw [deepcopyFields, copyList]
      simp
  | cons p rest ih =>
      obtain ⟨n, a⟩ := p
      intro h hv
      have ha : a < h.length := hv (n, a) (List.mem_cons_self _ _)
      have hrest : ∀ q ∈ rest,
          q.2 < (h ++ [h.getD a defaultFieldObj]).length := by
        intro q hq
        have := hv q (List.mem_cons_of_mem _ hq)
        simp only [List.length_append, List.length_cons, List.length_nil]
        omega
      rw [deepcopyFields]
      rw [ih _ hrest]
      dsimp only
      simp only [Prod.mk.injEq]
      constructor
      · simp only [List.append_assoc, List.singleton_append]
        refine congrArg _ (congrArg _ (List.map_congr_left ?_))
        intro q hq
        exact List.getD_append _ _ _ _ (hv q (List.mem_cons_of_mem _ hq))
      · rw [copyList]
        simp only [List.length_append, List.length_cons, List.length_nil]

theorem foldl_bindParent_spec (tmpl : List (String × Nat)) :
    ∀ (pre : Heap) (objs : List FieldObj) (selfId : Nat),
      objs.length = tmpl.length →
      (∀ o ∈ objs, o.parent = none) →
      (copyList pre.length tmpl).foldl
          (fun hh p => bindParent hh selfId p.2) (pre ++ objs) =
        pre ++ objs.map (fun o => { o with parent := some selfId }) := by
  induction tmpl with
  | nil =>
      intro pre objs selfId hlen _
      cases objs with
      | nil => rw [copyList]; simp
      | cons o orest => simp at hlen
  | cons p rest ih =>
      obtain ⟨n, a⟩ := p
      intro pre objs selfId hlen hp
      cases objs with
      | nil => simp at hlen
      | cons o orest =>
          rw [copyList]
          simp only [List.foldl_cons]
          have hget : (pre ++ o :: orest).getD pre.length defaultFieldObj = o := by
            rw [List.getD_append_right _ _ _ _ (Nat.le_refl _)]
            simp
          have hbind : bindParent (pre ++ o :: orest) selfId pre.length =
              pre ++ { o with parent := some selfId } :: orest := by
            unfold bindParent
            rw [hget, hp o (List.mem_cons_self _ _)]
            rw [List.set_append_right _ _ (Nat.le_refl _)]
            simp
          rw [hbind, List.append_cons]
          have hlen1 : pre.length + 1 =
              (pre ++ [{ o with parent := some selfId }]).length := by
            simp
          rw [hlen1]
          have hrec := ih (pre ++ [{ o with parent := some selfId }]) orest
            selfId (by simpa using hlen)
            (fun x hx => hp x (List.mem_cons_of_mem _ hx))
          rw [hrec]
          simp

theorem get_fields_spec (h : Heap) (selfId : Nat) (tmpl : List (String × Nat))
    (hv : ∀ p ∈ tmpl, p.2 < h.length)
    (hp : ∀ p ∈ tmpl, (h.getD p.2 defaultFieldObj).parent = none) :
    get_fields h selfId tmpl =
      (h ++ tmpl.map (fun p =>
          { h.getD p.2 defaultFieldObj with parent := some selfId }),
       copyList h.length tmpl) := by
  unfold get_fields
  rw [deepcopyFields_spec tmpl h hv]
  simp only
  rw [foldl_bindParent_spec tmpl h
    (tmpl.map fun p => h.getD p.2 defaultFieldObj) selfId
    (by simp)
    (by
      intro o ho
      obtain ⟨p, hpmem, rfl⟩ := List.mem_map.1 ho
      exact hp p hpmem)]
  rw [List.map_map]
  rfl

/-! ## Claim theorem about instance construction (`get_fields`) -/

/-- C8: constructing two independent schema instances (`id1` then `id2`) from
the same class template yields field mappings that are structurally equal —
same names in the same order, and each entry's field content equal to the
template's — but share no field objects: the two instances' addresses are
disjoint from each other and from the template's, each copied field's parent
back-reference is set to its own instance, and the class template's field
objects are never mutated by instance construction. -/
theorem schema_instances_share_no_field_objects (h : Heap)
    (tmpl : List (String × Nat)) (id1 id2 : Nat)
    (hv : ∀ p ∈ tmpl, p.2 < h.length)
    (hp : ∀ p ∈ tmpl, (h.getD p.2 defaultFieldObj).parent = none) :
    ((get_fields h id1 tmpl).2.map Prod.fst = tmpl.map Prod.fst ∧
      (get_fields (get_fields h id1 tmpl).1 id2 tmpl).2.map Prod.fst =
        tmpl.map Prod.fst) ∧
    (∀ i j, i < tmpl.length → j < tmpl.length →
      ((get_fields h id1 tmpl).2.getD i ("", 0)).2 ≠
          ((get_fields (get_fields h id1 tmpl).1 id2 tmpl).2.getD j ("", 0)).2 ∧
      ((get_fields h id1 tmpl).2.getD i ("", 0)).2 ≠ (tmpl.getD j ("", 0)).2 ∧
      ((get_fields (get_fields h id1 tmpl).1 id2 tmpl).2.getD i ("", 0)).2 ≠
          (tmpl.getD j ("", 0)).2) ∧
    (∀ i, i < tmpl.length →
      ((get_fields (get_fields h id1 tmpl).1 id2 tmpl).1.getD
          (((get_fields h id1 tmpl).2.getD i ("", 0)).2)
          defaultFieldObj).content =
        (h.getD ((tmpl.getD i ("", 0)).2) defaultFieldObj).content ∧
      ((get_fields (get_fields h id1 tmpl).1 id2 tmpl).1.getD
          (((get_fields (get_fields h id1 tmpl).1 id2 tmpl).2.getD
            i ("", 0)).2)
          defaultFieldObj).content =
        (h.getD ((tmpl.getD i ("", 0)).2) defaultFieldObj).content) ∧
    (∀ i, i < tmpl.length →
      ((get_fields (get_fields h id1 tmpl).1 id2 tmpl).1.getD
          (((get_fields h id1 tmpl).2.getD i ("", 0)).2)
          defaultFieldObj).parent = some id1 ∧
      ((get_fields (get_fields h id1 tmpl).1 id2 tmpl).1.getD
          (((get_fields (get_fields h id1 tmpl).1 id2 tmpl).2.getD
            i ("", 0)).2)
          defaultFieldObj).parent = some id2) ∧
    (∀ a, a < h.length →
      (get_fields (get_fields h id1 tmpl).1 id2 tmpl).1.getD a
          defaultFieldObj =
        h.getD a defaultFieldObj) := by
  have hspec1 := get_fields_spec h id1 tmpl hv hp
  set A := tmpl.map
    (fun p => { h.getD p.2 defaultFieldObj with parent := some id1 }) with hA
  have hlenA : A.length = tmpl.length := by rw [hA, List.length_map]
  have hlenHA : (h ++ A).length = h.length + tmpl.length := by
    rw [List.length_append, hlenA]
  have hv2 : ∀ p ∈ tmpl, p.2 < (h ++ A).length := by
    intro p hpm
    have := hv p hpm
    omega
  have hgetHA : ∀ p ∈ tmpl,
      (h ++ A).getD p.2 defaultFieldObj = h.getD p.2 defaultFieldObj :=
    fun p hpm => List.getD_append _ _ _ _ (hv p hpm)
  have hp2 : ∀ p ∈ tmpl,
      ((h ++ A).getD p.2 defaultFieldObj).parent = none := by
    intro p hpm
    rw [hgetHA p hpm]
    exact hp p hpm
  have hspec2 := get_fields_spec (h ++ A) id2 tmpl hv2 hp2
  set B := tmpl.map
    (fun p => { h.getD p.2 defaultFieldObj with parent := some id2 }) with hB
  have hBeq : tmpl.map (fun p =>
      { (h ++ A).getD p.2 defaultFieldObj with parent := some id2 }) = B := by
    rw [hB]
    exact List.map_congr_left (fun p hpm => by rw [hgetHA p hpm])
  rw [hBeq] at hspec2
  have hlenB : B.length = tmpl.length := by rw [hB, List.length_map]
  have h1fst : (get_fields h id1 tmpl).1 = h ++ A := by rw [hspec1]
  have h1snd : (get_fields h id1 tmpl).2 = copyList h.length tmpl := by
    rw [hspec1]
  have h2fst : (get_fields (get_fields h id1 tmpl).1 id2 tmpl).1 =
      (h ++ A) ++ B := by
    rw [h1fst, hspec2]
  have h2snd : (get_fields (get_fields h id1 tmpl).1 id2 tmpl).2 =
      copyList (h.length + tmpl.length) tmpl := by
    rw [h1fst, hspec2, hlenHA]
  have haddr1 : ∀ i, i < tmpl.length →
      ((get_fields h id1 tmpl).2.getD i ("", 0)).2 = h.length + i := by
    intro i hi
    rw [h1snd, copyList_getD _ _ _ hi]
  have haddr2 : ∀ i, i < tmpl.length →
      ((get_fields (get_fields h id1 tmpl).1 id2 tmpl).2.getD i ("", 0)).2 =
        h.length + tmpl.length + i := by
    intro i hi
    rw [h2snd, copyList_getD _ _ _ hi]
  have htmpladdr : ∀ j, j < tmpl.length → (tmpl.getD j ("", 0)).2 < h.length := by
    intro j hj
    apply hv
    rw [List.getD_eq_getElem _ _ hj]
    exact List.getElem_mem hj
  have hgetA : ∀ i, i < tmpl.length →
      ((h ++ A) ++ B).getD (h.length + i) defaultFieldObj =
        { h.getD ((tmpl.getD i ("", 0)).2) defaultFieldObj with
          parent := some id1 } := by
    intro i hi
    rw [List.getD_append _ _ _ _ (by omega)]
    rw [List.getD_append_right _ _ _ _ (by omega)]
    have harith : h.length + i - h.length = i := by omega
    rw [harith, hA, getD_map_of_lt _ _ _ hi]
  have hgetB : ∀ i, i < tmpl.length →
      ((h ++ A) ++ B).getD (h.length + tmpl.length + i) defaultFieldObj =
        { h.getD ((tmpl.getD i ("", 0)).2) defaultFieldObj with
          parent := some id2 } := by
    intro i hi
    rw [List.getD_append_right _ _ _ _ (by omega)]
    have harith : h.length + tmpl.length + i - (h ++ A).length = i := by omega
    rw [harith, hB, getD_map_of_lt _ _ _ hi]
  refine ⟨⟨?_, ?_⟩, ?_, ?_, ?_, ?_⟩
  · rw [h1snd, copyList_map_fst]
  · rw [h2snd, copyList_map_fst]
  · intro i j hi hj
    rw [haddr1 i hi, haddr2 j hj, haddr2 i hi]
    have hta := htmpladdr j hj
    refine ⟨by omega, by omega, by omega⟩
  · intro i hi
    rw [h2fst, haddr1 i hi, haddr2 i hi, hgetA i hi, hgetB i hi]
    exact ⟨rfl, rfl⟩
  · intro i hi
    rw [h2fst, haddr1 i hi, haddr2 i hi, hgetA i hi, hgetB i hi]
    exact ⟨rfl, rfl⟩
  · intro a ha
    rw [h2fst]
    rw [List.getD_append _ _ _ _ (by omega)]
    rw [List.getD_append _ _ _ _ (by omega)]

/-- Witness for C8: two instances (ids 1 and 2) built from a two-field
template over a two-object heap have the template's names in order. -/
theorem schema_instances_share_no_field_objects_witness :
    (get_fields [(⟨none, 7⟩ : FieldObj), ⟨none, 8⟩] 1
        [("name", 0), ("age", 1)]).2.map Prod.fst =
      ([("name", 0), ("age", 1)] : List (String × Nat)).map Prod.fst ∧
    (get_fields (get_fields [(⟨none, 7⟩ : FieldObj), ⟨none, 8⟩] 1
          [("name", 0), ("age", 1)]).1 2 [("name", 0), ("age", 1)]).2.map
        Prod.fst =
      ([("name", 0), ("age", 1)] : List (String × Nat)).map Prod.fst :=
  (schema_instances_share_no_field_objects [⟨none, 7⟩, ⟨none, 8⟩]
      [("name", 0), ("age", 1)] 1 2 (by decide) (by decide)).1

/-! ## Claim theorem about the email validator -/

/-- C10: `validate_email("user@example")` fails with a `ValidationError`
(its domain has no `.` separator), `validate_email("user@example.com")`
succeeds and returns its input unchanged, the test file's other invalid
inputs `"example.com"` and `"user"` also fail, and in general
`validate_email` fails exactly when its argument does not match the accepted
email shape (and succeeds, returning the input, exactly when it does). -/
theorem validate_email_contract :
    validate_email "user@example" = Except.error ⟨"Invalid email address."⟩ ∧
    validate_email "user@example.com" = Except.ok "user@example.com" ∧
    validate_email "example.com" = Except.error ⟨"Invalid email address."⟩ ∧
    validate_email "user" = Except.error ⟨"Invalid email address."⟩ ∧
    (∀ value : String,
      validate_email value = Except.ok value ↔ email_shape value = true) ∧
    (∀ value : String,
      validate_email value = Except.error ⟨"Invalid email address."⟩ ↔
        email_shape value = false) := by
  refine ⟨rfl, rfl, rfl, rfl, ?_, ?_⟩
  · intro value
    unfold validate_email
    by_cases hc : email_shape value <;> simp [hc]
  · intro value
    unfold validate_email
    by_cases hc : email_shape value <;> simp [hc]

end Marshmallow
